import Mathlib

set_option linter.unusedVariables false
set_option maxRecDepth 8000

/-!
Verification of the ADΔER codec core (adder-codec-rs / adder-codec-core).

This file gives a shallow embedding, in Lean 4, of the parts of the
repository relevant to the claims under examination:

* machine-integer helpers modelling Rust u8/u16/u32/i16/i64 casts and
  wrapping arithmetic,
* the block prediction model of
  adder-codec-core/src/codec/compressed/blocks/prediction.rs,
* the ADU serialization layout of
  adder-codec-core/src/codec/compressed/adu/frame.rs,
* the stream framing of adder-codec-core/src/codec/compressed/stream.rs,
* the per-pixel integration model of
  adder-codec-rs/src/transcoder/event_pixel_tree.rs (floating-point
  intensities and times are embedded as rationals; the fast approximate
  base-2 logarithm truncated to an integer agrees with the exact
  floor-log on arguments at least 1, which is how it is embedded).

Rust semantics conventions used throughout: `as` casts truncate
(modelled with explicit mod), release-mode integer overflow wraps
(modelled with explicit mod), a failed `assert!` aborts the function
(modelled with `Option`, where `none` is the panic).
-/

namespace AdderCodec

/-! ## Machine integer helpers -/

/-- Truncating cast of a mathematical integer to u32 (Rust `as u32`). -/
def u32wrap (x : ℤ) : ℕ := (x % 2 ^ 32).toNat

/-- Truncating cast of a mathematical integer to u8 (Rust `as u8`). -/
def u8wrap (x : ℤ) : ℕ := (x % 256).toNat

/-- Wrapping u32 subtraction (release-mode `a - b` on u32). -/
def u32sub (a b : ℕ) : ℕ := u32wrap ((a : ℤ) - (b : ℤ))

/-- Truncating cast of a mathematical integer to i16 (Rust `as i16`). -/
def i16wrap (x : ℤ) : ℤ := (x + 2 ^ 15) % 2 ^ 16 - 2 ^ 15

/-- Left shift on u32 (Rust `<<` on u32; shifted-out bits are dropped). -/
def u32shl (n : ℕ) (s : ℕ) : ℕ := n * 2 ^ s % 2 ^ 32

/-- Logical right shift on u32 (Rust `>>` on u32). -/
def u32shr (n : ℕ) (s : ℕ) : ℕ := n / 2 ^ s

/-- Arithmetic right shift of a signed value (Rust `>>` on i64): floor
division by a power of two. -/
def ashr (x : ℤ) (s : ℕ) : ℤ := Int.fdiv x (2 ^ s)

/-- Fuel-bounded base-2 logarithm; structural so that concrete values
compute by kernel reduction.  Agrees with `Nat.log 2` whenever the fuel
dominates the logarithm (proved below). -/
def log2fuel : ℕ → ℕ → ℕ
  | 0, _ => 0
  | fuel + 1, n => if n < 2 then 0 else log2fuel fuel (n / 2) + 1

/-- Leading zeros of a nonnegative i64 value (Rust `i64::leading_zeros`
restricted to the nonnegative range, which is the only way the codec
calls it: the argument is an absolute value). -/
def leadingZeros64 (n : ℕ) : ℕ := if n = 0 then 64 else 63 - log2fuel 64 n

/-! ## prediction.rs: data model

EventCoordless is the coordinate-free event content: a u8 decimation
and a u32 time field (holding either a delta-t or an absolute t
depending on context), per adder-codec-core.  Fields are embedded as ℕ
with the u8/u32 ranges imposed where the arithmetic demands it. -/

/-- EventCoordless from adder-codec-core: d (u8) and delta_t (u32). -/
structure EC where
  d : ℕ
  delta_t : ℕ
  deriving DecidableEq

/-- Default EventCoordless (Rust `Default::default()`): all zero. -/
def EC.default : EC := { d := 0, delta_t := 0 }

/-- EventCoordless::t(): the time field. -/
def EC.t (e : EC) : ℕ := e.delta_t

/-- Time modulation mode (crate::Mode). -/
inductive Mode where
  | FramePerfect
  | Continuous
  deriving DecidableEq

/-- BLOCK_SIZE_AREA: a block is a 16 by 16 tile, 256 pixels. -/
def BLOCK_SIZE_AREA : ℕ := 256

/-- Modelled from the spec: the constant D_ENCODE_NO_EVENT is declared
outside src/; the spec says it is a DResidual sentinel distinct from any
valid D residual (valid D residuals lie in -255..=255). -/
def D_ENCODE_NO_EVENT : ℤ := 256

/-- Modelled from the spec: D_MAX is declared outside src/; the spec
bounds it by 127 and the pixel-tree tests exercise d = 126. -/
def D_MAX : ℕ := 127

/-- D_SHIFT indexed at d: the integration threshold 2^d. -/
def dShift (d : ℕ) : ℕ := 2 ^ d

/-- A block of optional events for one tile over one reference interval
(prediction.rs `events: &BlockEvents`), indexed in row-major order. -/
def Block : Type := Fin 256 → Option EC

/-! ## prediction.rs: scalar helpers -/

/-- d_residual (prediction.rs line 345): the signed difference of two
u8 decimations, computed in i16. -/
def dResidual (d0 d1 : ℕ) : ℤ := (d1 : ℤ) - (d0 : ℤ)

/-- predict_delta_t (prediction.rs lines 359..381).  The prediction is
the memory delta_t shifted by the d residual when that residual lies
strictly inside the window of width 8, and the raw memory delta_t
otherwise; a prediction exceeding dtm falls back to the memory
delta_t. -/
def predictDeltaT (em : EC) (dResid : ℤ) (dtm : ℕ) : ℕ :=
  let p : ℕ :=
    if 0 < dResid then
      if dResid < 8 then u32shl em.delta_t dResid.toNat else em.delta_t
    else
      if (-8 : ℤ) < dResid then u32shr em.delta_t (-dResid).toNat else em.delta_t
  if dtm < p then em.delta_t else p

/-- Restatement of claim C5's description of predict_delta_t, written
from the spec's words, for comparison with the source embedding. -/
def predictDeltaTClaim (em : EC) (dResid : ℤ) (dtm : ℕ) : ℕ :=
  let p : ℕ :=
    if 0 < dResid ∧ dResid < 8 then u32shl em.delta_t dResid.toNat
    else if (-8 : ℤ) < dResid ∧ dResid < 0 then u32shr em.delta_t (-dResid).toNat
    else em.delta_t
  if dtm < p then em.delta_t else p

/-- The sparam renegotiation shared by forward_intra_prediction
(prediction.rs lines 158..162) and forward_inter_prediction (lines
233..237): when the maximal absolute t residual is positive and its
leading zeros plus the incoming sparam stay below 49, sparam is raised
to 49 minus those leading zeros. -/
def chooseSparam (sparam : ℕ) (maxTResid : ℕ) : ℕ :=
  if leadingZeros64 maxTResid + sparam < 49 ∧ 0 < maxTResid then
    49 - leadingZeros64 maxTResid
  else sparam

/-- update_values_from_prediction (prediction.rs lines 383..396).
Reconstructs the absolute time from the prediction and the dequantized
residual, derives the reconstructed delta_t by wrapping u32
subtraction, and asserts it does not exceed dtm (`none` is the assert
failing).  Returns the updated event memory and t_recon. -/
def updateValuesFromPrediction (em : EC) (tRecon : ℕ) (dtPred : ℕ)
    (dtPredResidual : ℤ) (dtm : ℕ) : Option (EC × ℕ) :=
  if u32sub (u32wrap ((tRecon : ℤ) + (dtPred : ℤ) + dtPredResidual)) tRecon ≤ dtm then
    some ({ em with
            delta_t := u32sub (u32wrap ((tRecon : ℤ) + (dtPred : ℤ) + dtPredResidual)) tRecon },
          u32wrap ((tRecon : ℤ) + (dtPred : ℤ) + dtPredResidual))
  else none

/-- FramePerfect rounding of a time to the next dt_ref boundary, as in
prediction.rs lines 100..103, 214..217 and 301..303: times not on a
boundary are rounded up to the next multiple of dt_ref. -/
def fpRound (mode : Mode) (dtRef : ℕ) (t : ℕ) : ℕ :=
  if mode = Mode.FramePerfect ∧ t % dtRef ≠ 0 then (t / dtRef + 1) * dtRef else t

/-! ## prediction.rs: the PredictionModel state

The residual scratch arrays of the Rust struct are reset at the start
of every forward call and returned by reference; they are embedded as
outputs of the forward functions rather than as state fields. -/

/-- PredictionModel state (prediction.rs lines 12..31): true last
times, reconstructed per-pixel event memory, reconstructed last times,
and the time modulation mode. -/
structure PM where
  t_memory : Fin 256 → ℕ
  event_memory : Fin 256 → EC
  t_recon : Fin 256 → ℕ
  time_modulation_mode : Mode

/-- PredictionModel::new (prediction.rs lines 34..44): zeroed memory. -/
def PM.new (mode : Mode) : PM :=
  { t_memory := fun _ => 0
    event_memory := fun _ => EC.default
    t_recon := fun _ => 0
    time_modulation_mode := mode }

/-- Per-pixel d residual of the inter forward pass (prediction.rs line
202): the new d minus the memory d. -/
def interDResid (em : EC) (next : EC) : ℤ := dResidual em.d next.d

/-- Per-pixel true delta_t of the inter forward pass (prediction.rs
line 209): the new absolute t minus the remembered absolute t
(wrapping u32 subtraction). -/
def interTrueDeltaT (tMem : ℕ) (next : EC) : ℕ := u32sub next.t tMem

/-- Per-pixel delta_t prediction of the inter forward pass
(prediction.rs line 219): predict_delta_t on the event memory, whose d
has already been overwritten with the new d (line 203). -/
def interDtPred (dtm : ℕ) (em : EC) (next : EC) : ℕ :=
  predictDeltaT { d := next.d, delta_t := em.delta_t } (interDResid em next) dtm

/-- Per-pixel prediction residual of the inter forward pass
(prediction.rs line 223). -/
def interResid (dtm : ℕ) (tMem : ℕ) (em : EC) (next : EC) : ℤ :=
  (interTrueDeltaT tMem next : ℤ) - (interDtPred dtm em next : ℤ)

/-- The d residual array of the inter forward pass (sentinel at
unpopulated positions, per reset_residuals at prediction.rs line 64). -/
def interDResArr (pm : PM) (events : Block) (i : Fin 256) : ℤ :=
  match events i with
  | some next => interDResid (pm.event_memory i) next
  | none => D_ENCODE_NO_EVENT

/-- The (unquantized) t prediction residual array of the inter forward
pass (zero at unpopulated positions). -/
def interResidArr (dtm : ℕ) (pm : PM) (events : Block) (i : Fin 256) : ℤ :=
  match events i with
  | some next => interResid dtm (pm.t_memory i) (pm.event_memory i) next
  | none => 0

/-- The running maximum of absolute t residuals over the block
(prediction.rs lines 225..229; the maximum starts at zero). -/
def interMaxT (dtm : ℕ) (pm : PM) (events : Block) : ℕ :=
  Finset.univ.sup fun i => (interResidArr dtm pm events i).natAbs

/-- The sparam the inter forward pass settles on. -/
def interSp (sparam dtm : ℕ) (pm : PM) (events : Block) : ℕ :=
  chooseSparam sparam (interMaxT dtm pm events)

/-- The quantized i16 t residual array of the inter forward pass
(prediction.rs lines 240..247). -/
def interR16 (sparam dtm : ℕ) (pm : PM) (events : Block) (i : Fin 256) : ℤ :=
  i16wrap (ashr (interResidArr dtm pm events i) (interSp sparam dtm pm events))

/-- The reconstruction pass of the inter forward direction
(reconstruct_t_values, prediction.rs lines 316..341), per pixel: the
event memory (whose d was already overwritten with the new d) and
t_recon are updated from the prediction and the dequantized residual. -/
def interUpd (sparam dtm : ℕ) (pm : PM) (events : Block) (i : Fin 256) : Option (EC × ℕ) :=
  match events i with
  | some next =>
      updateValuesFromPrediction { d := next.d, delta_t := (pm.event_memory i).delta_t }
        (pm.t_recon i) (interDtPred dtm (pm.event_memory i) next)
        (interR16 sparam dtm pm events i * 2 ^ interSp sparam dtm pm events) dtm
  | none => none

/-- The assert conditions of the inter forward pass at one pixel: the
true delta_t within dtm (prediction.rs line 211), the absolute residual
within dtm and below 10^8 (lines 227..228), and the reconstructed
delta_t within dtm (line 393). -/
def interOkAt (sparam dtm : ℕ) (pm : PM) (events : Block) (i : Fin 256) : Bool :=
  match events i with
  | some next =>
      decide (interTrueDeltaT (pm.t_memory i) next ≤ dtm) &&
      decide ((interResidArr dtm pm events i).natAbs ≤ dtm) &&
      decide ((interResidArr dtm pm events i).natAbs < 100000000) &&
      (interUpd sparam dtm pm events i).isSome
  | none => true

/-- forward_inter_prediction (prediction.rs lines 188..252) followed by
its internal reconstruct_t_values pass (lines 316..341).  Returns the
updated model state, the d residual array, the quantized i16 t residual
array and the (possibly renegotiated) sparam; `none` models any of the
asserts firing. -/
def forwardInter (sparam dtm dtRef : ℕ) (pm : PM) (events : Block) :
    Option (PM × (Fin 256 → ℤ) × (Fin 256 → ℤ) × ℕ) :=
  if (List.finRange 256).all (interOkAt sparam dtm pm events) then
    some
      ({ t_memory := fun i =>
           match events i with
           | some next => fpRound pm.time_modulation_mode dtRef next.t
           | none => pm.t_memory i
         event_memory := fun i =>
           match interUpd sparam dtm pm events i with
           | some (em2, _) => em2
           | none => pm.event_memory i
         t_recon := fun i =>
           match interUpd sparam dtm pm events i with
           | some (_, t2) => fpRound pm.time_modulation_mode dtRef t2
           | none => pm.t_recon i
         time_modulation_mode := pm.time_modulation_mode },
       interDResArr pm events, interR16 sparam dtm pm events, interSp sparam dtm pm events)
  else none

/-- Output of forward_intra_prediction (prediction.rs lines 174..180):
the head event time and d, the d residual array, the quantized
residual array and the negotiated sparam.  The head position startIdx
is additionally carried: the surrounding EventAdu cube structure, which
is not under src/, is responsible for placing the head event, and the
spec requires the decoded block to reproduce every input event. -/
structure IntraOut where
  startT : ℕ
  startD : ℕ
  startIdx : Option (Fin 256)
  dResiduals : Fin 256 → ℤ
  tResiduals16 : Fin 256 → ℤ
  sparam : ℕ

/-- First populated index of a block, in row-major scan order
(prediction.rs lines 89..111: the first Some event becomes the start). -/
def firstPopulated (events : Block) : Option (Fin 256) :=
  (List.finRange 256).find? fun i => (events i).isSome

/-- The head event of the intra pass: the first populated event, or
the default when the block is empty. -/
def intraStart (events : Block) : EC :=
  match firstPopulated events with
  | some i => (events i).getD EC.default
  | none => EC.default

/-- The d residual array of the intra forward pass: residuals against
the head d at every populated position after the head, sentinel
elsewhere (the head position itself keeps the sentinel: prediction.rs
line 94 is commented out). -/
def intraDResArr (events : Block) (i : Fin 256) : ℤ :=
  if firstPopulated events = some i then D_ENCODE_NO_EVENT
  else
    match events i with
    | some next => dResidual (intraStart events).d next.d
    | none => D_ENCODE_NO_EVENT

/-- The t residual array of the intra forward pass: the time field
minus the head time, in signed 64-bit (prediction.rs lines 117..118). -/
def intraTResArr (events : Block) (i : Fin 256) : ℤ :=
  if firstPopulated events = some i then 0
  else
    match events i with
    | some next => (next.delta_t : ℤ) - ((intraStart events).delta_t : ℤ)
    | none => 0

/-- The running maximum of absolute intra t residuals. -/
def intraMaxT (events : Block) : ℕ :=
  Finset.univ.sup fun i => (intraTResArr events i).natAbs

/-- The sparam the intra forward pass settles on. -/
def intraSp (sparam : ℕ) (events : Block) : ℕ :=
  chooseSparam sparam (intraMaxT events)

/-- forward_intra_prediction (prediction.rs lines 69..181).  Residuals
of every populated pixel after the first are taken against the head
event; the model memory is reset (event_memory stays default, the time
memories hold the FramePerfect-rounded true times).  `none` models the
quantization assert at line 170 failing. -/
def forwardIntra (sparam dtRef dtm : ℕ) (mode : Mode) (events : Block) :
    Option (IntraOut × PM) :=
  if (List.finRange 256).all
      (fun i => decide (ashr (intraTResArr events i) (intraSp sparam events) ≤ 2 ^ 15 - 1)) then
    some
      ({ startT := (intraStart events).delta_t
         startD := (intraStart events).d
         startIdx := firstPopulated events
         dResiduals := intraDResArr events
         tResiduals16 := fun i => i16wrap (ashr (intraTResArr events i) (intraSp sparam events))
         sparam := intraSp sparam events },
       { t_memory := fun i =>
           match events i with
           | some next => fpRound mode dtRef next.t
           | none => 0
         event_memory := fun _ => EC.default
         t_recon := fun i =>
           match events i with
           | some next => fpRound mode dtRef next.t
           | none => 0
         time_modulation_mode := mode })
  else none

/-- One pixel of inverse_inter_prediction (prediction.rs lines
261..310): recover d by the wrapping u8 cast of memory d plus the d
residual, dequantize the t residual, predict delta_t exactly as the
encoder does (the inline match of lines 272..290 coincides with
predict_delta_t), reconstruct the absolute time and the new memory.
Returns the updated event memory, the unrounded reconstructed time and
the emitted event. -/
def inverseInterStep (sp dtm : ℕ) (em : EC) (tRecon : ℕ) (dR r16 : ℤ) : EC × ℕ × EC :=
  let d : ℕ := u8wrap ((em.d : ℤ) + dR)
  let tResid : ℤ := r16 * 2 ^ sp
  let dtPred : ℕ := predictDeltaT em dR dtm
  let reconT : ℕ := u32wrap ((tRecon : ℤ) + (dtPred : ℤ) + tResid)
  ({ d := d, delta_t := u32sub reconT tRecon }, reconT, { d := d, delta_t := reconT })

/-- One position of the inverse inter pass: an event is decoded
exactly when the d residual is not the sentinel (prediction.rs line
268). -/
def inverseStepAt (sp dtm : ℕ) (pm : PM) (dRes r16 : Fin 256 → ℤ) (i : Fin 256) :
    Option (EC × ℕ × EC) :=
  if dRes i ≠ D_ENCODE_NO_EVENT then
    some (inverseInterStep sp dtm (pm.event_memory i) (pm.t_recon i) (dRes i) (r16 i))
  else none

/-- inverse_inter_prediction (prediction.rs lines 254..314): every
position whose d residual is not the sentinel produces an event and
updates the memories; t_recon is FramePerfect-rounded after the
update. -/
def inverseInter (sp dtm dtRef : ℕ) (pm : PM) (dRes r16 : Fin 256 → ℤ) : PM × Block :=
  ({ t_memory := pm.t_memory
     event_memory := fun i =>
       match inverseStepAt sp dtm pm dRes r16 i with
       | some (em2, _, _) => em2
       | none => pm.event_memory i
     t_recon := fun i =>
       match inverseStepAt sp dtm pm dRes r16 i with
       | some (_, t2, _) => fpRound pm.time_modulation_mode dtRef t2
       | none => pm.t_recon i
     time_modulation_mode := pm.time_modulation_mode },
   fun i => (inverseStepAt sp dtm pm dRes r16 i).map fun x => x.2.2)

/-- Modelled from the spec: the intra-block decoder (the intra
counterpart of inverse_inter_prediction lives in the EventAdu layer,
which is not under src/).  Following spec section 4.2: the head event
is reproduced verbatim at its position, and every position whose d
residual is not the sentinel recovers d as head d plus the residual and
t as head t plus the dequantized t residual.  The decoder model memory
starts zeroed, exactly as the encoder leaves it after its intra pass. -/
def intraDecodedBlock (o : IntraOut) : Block := fun i =>
  if o.startIdx = some i then some { d := o.startD, delta_t := o.startT }
  else if o.dResiduals i ≠ D_ENCODE_NO_EVENT then
    some
      { d := u8wrap ((o.startD : ℤ) + o.dResiduals i)
        delta_t := u32wrap ((o.startT : ℤ) + o.tResiduals16 i * 2 ^ o.sparam) }
  else none

/-- Modelled from the spec: the decoder state after the intra block,
mirroring what the encoder's intra pass leaves behind: zeroed event
memory and the decoded times in the time memories. -/
def inverseIntra (mode : Mode) (dtRef : ℕ) (o : IntraOut) : PM × Block :=
  ({ t_memory := fun i =>
       match intraDecodedBlock o i with | some e => fpRound mode dtRef e.t | none => 0
     event_memory := fun _ => EC.default
     t_recon := fun i =>
       match intraDecodedBlock o i with | some e => fpRound mode dtRef e.t | none => 0
     time_modulation_mode := mode },
   intraDecodedBlock o)

/-! ## Cube-level pipeline

A cube holds one intra block followed by the inter blocks of the
subsequent reference intervals (spec sections 3 and 4.4); the encoder
threads the prediction model state through the blocks, and the decoder
mirrors it.  The surrounding EventAdu bookkeeping is not under src/;
the threading below is modelled from the spec. -/

/-- Encoded form of one cube: the intra output and, per inter block,
the d residuals, the quantized t residuals and the sparam. -/
structure EncodedCube where
  intra : IntraOut
  inters : List ((Fin 256 → ℤ) × (Fin 256 → ℤ) × ℕ)

/-- Encode the inter blocks of a cube, threading the model state. -/
def encodeInters (sparam dtm dtRef : ℕ) :
    PM → List Block → Option (List ((Fin 256 → ℤ) × (Fin 256 → ℤ) × ℕ))
  | _, [] => some []
  | pm, b :: bs =>
      match forwardInter sparam dtm dtRef pm b with
      | some (pm2, dR, r16, sp) =>
          (encodeInters sparam dtm dtRef pm2 bs).map fun rest => (dR, r16, sp) :: rest
      | none => none

/-- Encode a whole cube: the intra block then the inter blocks. -/
def encodeCube (sparam dtm dtRef : ℕ) (mode : Mode) (intraB : Block) (inters : List Block) :
    Option EncodedCube :=
  match forwardIntra sparam dtRef dtm mode intraB with
  | some (o, pm1) =>
      (encodeInters sparam dtm dtRef pm1 inters).map fun l => { intra := o, inters := l }
  | none => none

/-- Decode the inter blocks of a cube, threading the model state. -/
def decodeInters (dtm dtRef : ℕ) : PM → List ((Fin 256 → ℤ) × (Fin 256 → ℤ) × ℕ) → List Block
  | _, [] => []
  | pm, (dR, r16, sp) :: rest =>
      let out := inverseInter sp dtm dtRef pm dR r16
      out.2 :: decodeInters dtm dtRef out.1 rest

/-- Decode a whole cube. -/
def decodeCube (dtm dtRef : ℕ) (mode : Mode) (e : EncodedCube) : List Block :=
  let out := inverseIntra mode dtRef e.intra
  out.2 :: decodeInters dtm dtRef out.1 e.inters

/-- The d values of the event sequence a pixel receives across a list
of blocks, in block order: one entry per event of that pixel. -/
def pixelDs (blocks : List Block) (i : Fin 256) : List ℕ :=
  blocks.filterMap fun b => (b i).map EC.d

/-- Well-formedness of a block: every event's d fits in a u8, as
guaranteed by the D field of crate::Event. -/
def blockWf (b : Block) : Prop := ∀ i e, b i = some e → e.d < 256

/-! ## stream.rs: CompressedOutput::ingest_event and
CompressedInput::set_input_stream_position -/

/-- An ADΔER event as ingested by the stream layer (crate::Event):
coordinates, an absolute timestamp t (u32 ticks) and a decimation d. -/
structure EventC where
  x : ℕ
  y : ℕ
  t : ℕ
  d : ℕ
  deriving DecidableEq

/-- Modelled from the spec: EventAdu
(source_model/event_structure/event_adu.rs is not under src/).  Only
what CompressedOutput::ingest_event reads is modelled: start_t, dt_ref
and num_intervals, plus the buffered events. -/
structure EventAdu where
  start_t : ℕ
  dt_ref : ℕ
  num_intervals : ℕ
  events : List EventC
  deriving DecidableEq

/-- Modelled from the spec: EventAdu::ingest_event buffers the event
into the ADU being accumulated (spec section 4.4 step 2). -/
def EventAdu.ingest (a : EventAdu) (e : EventC) : EventAdu :=
  { a with events := a.events ++ [e] }

/-- State of a CompressedOutput (stream.rs lines 11..16): the current
ADU and the bytes written so far to the output stream. -/
structure CompressedOutputM where
  adu : EventAdu
  stream : List ℕ
  deriving DecidableEq

/-- Big-endian byte expansion of a length cast to u32
(`(written_data.len() as u32).to_be_bytes()`, stream.rs line 106). -/
def u32beBytes (n : ℕ) : List ℕ :=
  [n % 2 ^ 32 / 2 ^ 24, n % 2 ^ 24 / 2 ^ 16, n % 2 ^ 16 / 2 ^ 8, n % 2 ^ 8]

/-- CompressedOutput::ingest_event (stream.rs lines 89..117).  When the
event's t exceeds the ADU window the current ADU is compressed into a
temporary buffer, the buffer's length is written as a 32-bit big-endian
header and the buffer follows; in every case the event is then ingested
into the ADU.  EventAdu::compress is not under src/, so the compressor
is abstracted as the argument compressFn. -/
def ingestEvent (compressFn : EventAdu → List ℕ) (st : CompressedOutputM) (e : EventC) :
    CompressedOutputM :=
  let st1 :=
    if st.adu.start_t + st.adu.dt_ref * st.adu.num_intervals < e.t then
      let written := compressFn st.adu
      { st with stream := st.stream ++ u32beBytes written.length ++ written }
    else st
  { st1 with adu := st1.adu.ingest e }

/-- Codec error kinds relevant here (codec/mod.rs lines 144..177). -/
inductive CodecErrorM where
  | seek
  | eof
  deriving DecidableEq

/-- Result of a seek request: the reached bit position on success, a
codec error otherwise (the Ok and Err of the Rust Result). -/
inductive SeekResult where
  | ok (bitPos : ℕ)
  | err (e : CodecErrorM)
  deriving DecidableEq

/-- CompressedInput::set_input_stream_position (stream.rs lines
223..238).  headerSize and eventSize come from the stream metadata;
seekOk abstracts whether the underlying reader's seek_bits call
succeeds; the ok payload is the bit position passed to seek_bits,
namely pos * 8.  The saturating subtraction is Rust
`pos.saturating_sub(header_size)`, which ℕ subtraction matches; the
Rust remainder panics when eventSize is zero, modelled as `none`. -/
def setInputStreamPosition (headerSize eventSize pos : ℕ) (seekOk : Bool) :
    Option (SeekResult) :=
  if eventSize = 0 then none
  else if (pos - headerSize) % eventSize ≠ 0 then some (SeekResult.err CodecErrorM.seek)
  else if ¬seekOk then some (SeekResult.err CodecErrorM.seek)
  else some (SeekResult.ok (pos * 8))

/-! ## adu/frame.rs: ADU serialization

The arithmetic coder maps symbols to bits adaptively; the payload is
embedded at the symbol level, as the list of symbols pushed through the
coder, each an integer (header fields are split into big-endian bytes
through the u8 context, residuals are signed 16-bit symbols). -/

/-- An intra block's coded content, with the fields visible in
adu/frame.rs (compare_channels, lines 404..437). -/
structure AduIntraBlock where
  head_event_t : ℕ
  head_event_d : ℕ
  shift_loss_param : ℕ
  d_residuals : List ℤ
  dt_residuals : List ℤ
  deriving DecidableEq

/-- An inter block's coded content (adu/frame.rs test lines 239..243
and compare_channels). -/
structure AduInterBlock where
  shift_loss_param : ℕ
  d_residuals : List ℤ
  t_residuals : List ℤ
  deriving DecidableEq

/-- AduCube (adu/cube.rs is not under src/; fields per compare_channels
in adu/frame.rs and spec section 4.3): tile coordinates, the number of
inter blocks, one intra block and the inter blocks. -/
structure AduCube where
  idx_y : ℕ
  idx_x : ℕ
  num_inter_blocks : ℕ
  intra_block : AduIntraBlock
  inter_blocks : List AduInterBlock
  deriving DecidableEq

/-- AduChannel (adu/frame.rs lines 20..26): a cube count and the
cubes. -/
structure AduChannel where
  num_cubes : ℕ
  cubes : List AduCube
  deriving DecidableEq

/-- Adu (adu/frame.rs lines 86..93): the head event timestamp and one
channel record for each of R, G and B. -/
structure Adu where
  head_event_t : ℕ
  cubes_r : AduChannel
  cubes_g : AduChannel
  cubes_b : AduChannel
  deriving DecidableEq

/-- Big-endian byte symbols of a u16 field. -/
def be16T (n : ℕ) : List ℤ := [((n / 256 % 256 : ℕ) : ℤ), ((n % 256 : ℕ) : ℤ)]

/-- Big-endian byte symbols of a u32 field. -/
def be32T (n : ℕ) : List ℤ :=
  [((n / 2 ^ 24 % 256 : ℕ) : ℤ), ((n / 2 ^ 16 % 256 : ℕ) : ℤ),
   ((n / 2 ^ 8 % 256 : ℕ) : ℤ), ((n % 256 : ℕ) : ℤ)]

/-- Modelled from the spec: intra block symbol layout (spec section 6;
adu/intrablock.rs is not under src/): head d byte, head t bytes, the
shift loss parameter byte, then the 256 d residual symbols and the 256
t residual symbols. -/
def serializeIntra (b : AduIntraBlock) : List ℤ :=
  ((b.head_event_d : ℤ) :: be32T b.head_event_t) ++
    ((b.shift_loss_param : ℤ) :: (b.d_residuals ++ b.dt_residuals))

/-- Modelled from the spec: inter block symbol layout (spec section 6;
adu/interblock.rs is not under src/). -/
def serializeInter (b : AduInterBlock) : List ℤ :=
  (b.shift_loss_param : ℤ) :: (b.d_residuals ++ b.t_residuals)

/-- Modelled from the spec: cube symbol layout (spec section 4.3;
adu/cube.rs is not under src/): idx_y, idx_x and the inter block count
as big-endian u16 bytes, then the intra block and the inter blocks. -/
def serializeCube (c : AduCube) : List ℤ :=
  be16T c.idx_y ++ be16T c.idx_x ++ be16T c.num_inter_blocks ++
    serializeIntra c.intra_block ++ (c.inter_blocks.map serializeInter).flatten

/-- AduChannel::compress (adu/frame.rs lines 29..54): the cube count as
big-endian u16 bytes, then each cube in order. -/
def serializeChannel (ch : AduChannel) : List ℤ :=
  be16T ch.num_cubes ++ (ch.cubes.map serializeCube).flatten

/-- Adu::compress (adu/frame.rs lines 139..162): the head event
timestamp as big-endian u32 bytes, then the R channel, the G channel
and the B channel — unconditionally all three. -/
def serializeAdu (a : Adu) : List ℤ :=
  be32T a.head_event_t ++ serializeChannel a.cubes_r ++
    serializeChannel a.cubes_g ++ serializeChannel a.cubes_b

/-- Restatement of claim C3's description of the ADU payload, written
from the spec's words: one serialized channel per color plane — the
luminance channel alone when the plane has one channel, R then G then B
when it has three. -/
def serializeAduClaim (channels : ℕ) (a : Adu) : List ℤ :=
  be32T a.head_event_t ++
    (if channels = 1 then serializeChannel a.cubes_r
     else serializeChannel a.cubes_r ++ serializeChannel a.cubes_g ++
       serializeChannel a.cubes_b)

/-- Take n symbols off the stream. -/
def readN (n : ℕ) (l : List ℤ) : Option (List ℤ × List ℤ) :=
  if n ≤ l.length then some (l.take n, l.drop n) else none

/-- Parse a big-endian u16 field. -/
def parseBe16 : List ℤ → Option (ℕ × List ℤ)
  | b1 :: b0 :: r => some (b1.toNat * 256 + b0.toNat, r)
  | _ => none

/-- Parse a big-endian u32 field. -/
def parseBe32 : List ℤ → Option (ℕ × List ℤ)
  | b3 :: b2 :: b1 :: b0 :: r =>
      some (((b3.toNat * 256 + b2.toNat) * 256 + b1.toNat) * 256 + b0.toNat, r)
  | _ => none

/-- Parse an intra block (the mirror of serializeIntra). -/
def parseIntra (l : List ℤ) : Option (AduIntraBlock × List ℤ) :=
  match l with
  | d :: r1 =>
      match parseBe32 r1 with
      | some (t, r2) =>
          match r2 with
          | slp :: r3 =>
              match readN 256 r3 with
              | some (dr, r4) =>
                  match readN 256 r4 with
                  | some (tr, r5) =>
                      some
                        ({ head_event_t := t, head_event_d := d.toNat,
                           shift_loss_param := slp.toNat, d_residuals := dr,
                           dt_residuals := tr }, r5)
                  | none => none
              | none => none
          | [] => none
      | none => none
  | [] => none

/-- Parse an inter block (the mirror of serializeInter). -/
def parseInter (l : List ℤ) : Option (AduInterBlock × List ℤ) :=
  match l with
  | slp :: r1 =>
      match readN 256 r1 with
      | some (dr, r2) =>
          match readN 256 r2 with
          | some (tr, r3) =>
              some ({ shift_loss_param := slp.toNat, d_residuals := dr, t_residuals := tr }, r3)
          | none => none
      | none => none
  | [] => none

/-- Parse a counted sequence of inter blocks. -/
def parseInters : ℕ → List ℤ → Option (List AduInterBlock × List ℤ)
  | 0, l => some ([], l)
  | n + 1, l =>
      match parseInter l with
      | some (b, r) =>
          match parseInters n r with
          | some (bs, r2) => some (b :: bs, r2)
          | none => none
      | none => none

/-- Parse one cube (the mirror of serializeCube). -/
def parseCube (l : List ℤ) : Option (AduCube × List ℤ) :=
  match parseBe16 l with
  | some (y, r1) =>
      match parseBe16 r1 with
      | some (x, r2) =>
          match parseBe16 r2 with
          | some (nib, r3) =>
              match parseIntra r3 with
              | some (ib, r4) =>
                  match parseInters nib r4 with
                  | some (ibs, r5) =>
                      some
                        ({ idx_y := y, idx_x := x, num_inter_blocks := nib,
                           intra_block := ib, inter_blocks := ibs }, r5)
                  | none => none
              | none => none
          | none => none
      | none => none
  | none => none

/-- Parse a counted sequence of cubes. -/
def parseCubes : ℕ → List ℤ → Option (List AduCube × List ℤ)
  | 0, l => some ([], l)
  | n + 1, l =>
      match parseCube l with
      | some (c, r) =>
          match parseCubes n r with
          | some (cs, r2) => some (c :: cs, r2)
          | none => none
      | none => none

/-- AduChannel::decompress (adu/frame.rs lines 56..82): read the cube
count, then that many cubes. -/
def parseChannel (l : List ℤ) : Option (AduChannel × List ℤ) :=
  match parseBe16 l with
  | some (nc, r1) =>
      match parseCubes nc r1 with
      | some (cs, r2) => some ({ num_cubes := nc, cubes := cs }, r2)
      | none => none
  | none => none

/-- Adu::decompress (adu/frame.rs lines 164..195): read the head event
timestamp, then — unconditionally — the R, G and B channels in that
order. -/
def parseAdu (l : List ℤ) : Option (Adu × List ℤ) :=
  match parseBe32 l with
  | some (t, r1) =>
      match parseChannel r1 with
      | some (chr, r2) =>
          match parseChannel r2 with
          | some (chg, r3) =>
              match parseChannel r3 with
              | some (chb, r4) =>
                  some
                    ({ head_event_t := t, cubes_r := chr, cubes_g := chg,
                       cubes_b := chb }, r4)
              | none => none
          | none => none
      | none => none
  | none => none

/-- Well-formed intra block: byte-size fields fit, residual arrays have
the fixed length 256. -/
def intraWf (b : AduIntraBlock) : Prop :=
  b.head_event_t < 2 ^ 32 ∧ b.head_event_d < 256 ∧ b.shift_loss_param < 256 ∧
    b.d_residuals.length = 256 ∧ b.dt_residuals.length = 256

/-- Well-formed inter block. -/
def interWf (b : AduInterBlock) : Prop :=
  b.shift_loss_param < 256 ∧ b.d_residuals.length = 256 ∧ b.t_residuals.length = 256

/-- Well-formed cube: u16 fields fit, the stored inter block count
matches the list, the blocks are well formed. -/
def cubeWf (c : AduCube) : Prop :=
  c.idx_y < 2 ^ 16 ∧ c.idx_x < 2 ^ 16 ∧ c.num_inter_blocks < 2 ^ 16 ∧
    c.num_inter_blocks = c.inter_blocks.length ∧ intraWf c.intra_block ∧
    ∀ b ∈ c.inter_blocks, interWf b

/-- Well-formed channel: the stored cube count matches the list (as
maintained by Adu::add_cube, adu/frame.rs lines 120..135). -/
def channelWf (ch : AduChannel) : Prop :=
  ch.num_cubes < 2 ^ 16 ∧ ch.num_cubes = ch.cubes.length ∧ ∀ c ∈ ch.cubes, cubeWf c

/-- Well-formed ADU. -/
def aduWf (a : Adu) : Prop :=
  a.head_event_t < 2 ^ 32 ∧ channelWf a.cubes_r ∧ channelWf a.cubes_g ∧ channelWf a.cubes_b

/-! ## event_pixel_tree.rs: the per-pixel integration model

Intensities and times are f32/f64 in the source; they are embedded as
rationals.  fast_math::log2_raw underestimates the exact base-2
logarithm by less than one and is exact on powers of two, so its
truncation to an integer, on arguments at least 1, is the floor base-2
logarithm, embedded below through the natural-number logarithm of the
floored argument; on arguments in (1/2, 1) the truncation toward zero
yields 0, which the embedding also produces (below 1/2 the Rust cast to
u8 is undefined behaviour and the embedding returns 0 as well). -/

/-- get_d_from_intensity (event_pixel_tree.rs lines 377..388): the
truncated approximate base-2 logarithm of a positive intensity, capped
at D_MAX; zero for nonpositive intensities.  The fuel 200 dominates
every logarithm the cap can distinguish (the cap applies strictly below
it; see the bridging lemmas). -/
def getDFromIntensity (intensity : ℚ) : ℕ :=
  if 0 < intensity then min (log2fuel 200 ⌊intensity⌋₊) D_MAX else 0

/-- The d-raising loop of integrate_main (event_pixel_tree.rs lines
348..353): increment d, stop as soon as D_SHIFT exceeds the truncated
integration.  Structural fuel stands for the bounded D_SHIFT table. -/
def raiseD : ℕ → ℕ → ℕ → ℕ
  | 0, d, _ => d + 1
  | fuel + 1, d, integFloor => if integFloor < dShift (d + 1) then d + 1 else raiseD fuel (d + 1) integFloor

/-- PixelState (event_pixel_tree.rs lines 45..49). -/
structure PixelState where
  d : ℕ
  integration : ℚ
  delta_t : ℚ
  deriving DecidableEq

/-- A pixel node as integrate_main sees it: its state and its best
event, the latter holding a d and a delta_t (coordinates omitted: they
are copied verbatim from the arena). -/
structure PixelNodeM where
  state : PixelState
  best_event : Option (ℕ × ℚ)
  deriving DecidableEq

/-- integrate_main (event_pixel_tree.rs lines 320..374).  If the
incoming intensity does not reach the node's threshold it only
accumulates.  Otherwise d is first recomputed from the total
integration, the crossing fraction prop is taken against that new d
(`none` models the `assert prop positive` at line 335 failing), the
best event is recorded, and — only below D_MAX — the sample is
accumulated and d is raised past the integration; the returned pair is
the remaining intensity and time handed to the child node. -/
def fireNewD (s : PixelState) (intensity : ℚ) : ℕ :=
  getDFromIntensity (s.integration + intensity)

/-- The crossing fraction of a firing node (event_pixel_tree.rs lines
333..334), taken against the freshly recomputed d. -/
def fireProp (s : PixelState) (intensity : ℚ) : ℚ :=
  ((dShift (fireNewD s intensity) : ℚ) - s.integration) / intensity

/-- The node state after a fire (event_pixel_tree.rs lines 343..356):
below D_MAX the sample is accumulated and d raised past the
integration; at D_MAX nothing is accumulated. -/
def fireState (s : PixelState) (intensity time : ℚ) : PixelState :=
  if fireNewD s intensity < D_MAX then
    { d := raiseD 128 (fireNewD s intensity) ⌊s.integration + intensity⌋₊
      integration := s.integration + intensity
      delta_t := s.delta_t + time }
  else
    { d := fireNewD s intensity, integration := s.integration, delta_t := s.delta_t }

/-- The remainder handed to the child node after a fire
(event_pixel_tree.rs lines 358..368). -/
def fireRet (s : PixelState) (intensity time : ℚ) (mode : Mode) : ℚ × ℚ :=
  if 0 ≤ intensity - intensity * fireProp s intensity then
    match mode with
    | Mode.FramePerfect => (0, 0)
    | Mode.Continuous =>
        (intensity - intensity * fireProp s intensity, time - time * fireProp s intensity)
  else (0, 0)

/-- integrate_main (event_pixel_tree.rs lines 320..374).  If the
incoming intensity does not reach the node's threshold it only
accumulates; otherwise the node fires as described on fireNewD,
fireProp, fireState and fireRet, with `none` modelling the positivity
assert on prop failing. -/
def integrateMain (n : PixelNodeM) (intensity time : ℚ) (mode : Mode) :
    Option (PixelNodeM × Option (ℚ × ℚ)) :=
  if (dShift n.state.d : ℚ) ≤ n.state.integration + intensity then
    if 0 < fireProp n.state intensity then
      some
        ({ state := fireState n.state intensity time
           best_event := some (fireNewD n.state intensity,
             n.state.delta_t + time * fireProp n.state intensity) },
         some (fireRet n.state intensity time mode))
    else none
  else
    some
      ({ n with
         state :=
           { n.state with
             integration := n.state.integration + intensity,
             delta_t := n.state.delta_t + time } },
       none)

/-! ## Helper lemmas -/

theorem log2fuel_eq_min (f n : ℕ) : log2fuel f n = min (Nat.log 2 n) f := by
  induction f generalizing n with
  | zero => simp [log2fuel]
  | succ f ih =>
    rw [log2fuel]
    by_cases h : n < 2
    · have h0 : Nat.log 2 n = 0 := Nat.log_eq_zero_iff.mpr (Or.inl h)
      simp [h, h0]
    · push_neg at h
      have hpos : 0 < Nat.log 2 n := Nat.log_pos one_lt_two h
      have hdiv : Nat.log 2 (n / 2) = Nat.log 2 n - 1 := Nat.log_div_base 2 n
      rw [if_neg (by omega), ih, hdiv]
      omega

theorem leadingZeros64_eq {n : ℕ} (h0 : 0 < n) (h : n < 2 ^ 63) :
    leadingZeros64 n = 63 - Nat.log 2 n := by
  have hlt : Nat.log 2 n < 63 := Nat.log_lt_of_lt_pow (by omega) h
  unfold leadingZeros64
  rw [if_neg (by omega), log2fuel_eq_min]
  omega

theorem chooseSparam_lt (s maxT : ℕ) (hmax : maxT < 2 ^ 63) :
    maxT < 2 ^ (15 + chooseSparam s maxT) := by
  by_cases h0 : 0 < maxT
  · have hlz : leadingZeros64 maxT = 63 - Nat.log 2 maxT := leadingZeros64_eq h0 hmax
    have hloglt : Nat.log 2 maxT < 63 := Nat.log_lt_of_lt_pow (by omega) hmax
    have hup : maxT < 2 ^ (Nat.log 2 maxT + 1) := Nat.lt_pow_succ_log_self one_lt_two maxT
    unfold chooseSparam
    by_cases hc : leadingZeros64 maxT + s < 49 ∧ 0 < maxT
    · rw [if_pos hc]
      have he : 15 + (49 - leadingZeros64 maxT) = Nat.log 2 maxT + 1 := by omega
      rw [he]; exact hup
    · rw [if_neg hc]
      have hge : 49 ≤ leadingZeros64 maxT + s := by
        rcases not_and_or.mp hc with h | h
        · omega
        · omega
      have hle : Nat.log 2 maxT + 1 ≤ 15 + s := by omega
      exact lt_of_lt_of_le hup (Nat.pow_le_pow_right (by omega) hle)
  · have hz : maxT = 0 := by omega
    subst hz
    positivity

theorem ashr_bounds {r : ℤ} {s : ℕ} (h : r.natAbs < 2 ^ (15 + s)) :
    -(2 ^ 15) ≤ ashr r s ∧ ashr r s ≤ 2 ^ 15 - 1 := by
  have h2 : (0 : ℤ) < 2 ^ s := by positivity
  have habs : |r| < 2 ^ (15 + s) := by
    rw [Int.abs_eq_natAbs]
    exact_mod_cast h
  rw [abs_lt] at habs
  have hpow : ((2 : ℤ) ^ 15) * 2 ^ s = 2 ^ (15 + s) := by
    rw [pow_add]
  have hed : ashr r s = r / 2 ^ s := Int.fdiv_eq_ediv r (by positivity)
  constructor
  · rw [hed, Int.le_ediv_iff_mul_le h2]
    calc -(2 ^ 15) * 2 ^ s = -(2 ^ (15 + s)) := by rw [← hpow]; ring
    _ ≤ r := le_of_lt habs.1
  · have : r / 2 ^ s < 2 ^ 15 := by
      rw [Int.ediv_lt_iff_lt_mul h2, hpow]
      exact habs.2
    rw [hed]
    omega

/-! ## Claim theorems: sparam negotiation (C4) -/

/-- C4: for every block, the emitted sparam is 49 minus the leading
zeros of the maximal absolute t residual whenever that maximum is
positive and its leading zeros plus the incoming sparam are below 49,
and the incoming sparam otherwise; with the chosen sparam every
quantized residual (arithmetic shift right by sparam) fits in a signed
16-bit integer.  The hypothesis bounds the maximum by the i64 absolute
value range, which is how the source computes it. -/
theorem sparam_negotiation_fits_i16 (s maxT : ℕ) (hmax : maxT < 2 ^ 63) :
    (chooseSparam s maxT =
      if 0 < maxT ∧ leadingZeros64 maxT + s < 49 then 49 - leadingZeros64 maxT else s) ∧
    ∀ r : ℤ, r.natAbs ≤ maxT →
      -(2 ^ 15) ≤ ashr r (chooseSparam s maxT) ∧
        ashr r (chooseSparam s maxT) ≤ 2 ^ 15 - 1 := by
  constructor
  · unfold chooseSparam
    by_cases hc : leadingZeros64 maxT + s < 49 ∧ 0 < maxT
    · rw [if_pos hc, if_pos ⟨hc.2, hc.1⟩]
    · rw [if_neg hc, if_neg fun h => hc ⟨h.2, h.1⟩]
  · intro r hr
    exact ashr_bounds (lt_of_le_of_lt hr (chooseSparam_lt s maxT hmax))

/-- Witness for C4: the theorem applied at sparam 3, maximal residual
5, residual -3, with the hypotheses discharged by computation. -/
theorem sparam_negotiation_fits_i16_witness :
    -(2 ^ 15) ≤ ashr (-3) (chooseSparam 3 5) ∧ ashr (-3) (chooseSparam 3 5) ≤ 2 ^ 15 - 1 :=
  (sparam_negotiation_fits_i16 3 5 (by norm_num)).2 (-3) (by decide)

/-! ## Claim theorems: predict_delta_t (C5) -/

/-- C5: predict_delta_t equals the claim's description — the memory
delta_t shifted left by the d residual when 0 < d_resid < 8, shifted
right by its magnitude when -8 < d_resid < 0, unchanged otherwise, and
falling back to the memory delta_t whenever the shifted prediction
exceeds dtm. -/
theorem predict_delta_t_matches_claim (em : EC) (dResid : ℤ) (dtm : ℕ) :
    predictDeltaT em dResid dtm = predictDeltaTClaim em dResid dtm := by
  unfold predictDeltaT predictDeltaTClaim
  by_cases h1 : 0 < dResid
  · by_cases h2 : dResid < 8
    · simp [h1, h2]
    · have h3 : ¬((-8 : ℤ) < dResid ∧ dResid < 0) := by omega
      simp [h1, h2, h3]
  · by_cases h3 : (-8 : ℤ) < dResid
    · by_cases h4 : dResid < 0
      · have h5 : ¬(0 < dResid ∧ dResid < 8) := by omega
        simp [h1, h3, h4, h5]
      · have h0 : dResid = 0 := by omega
        subst h0
        simp [u32shr]
    · have h5 : ¬(0 < dResid ∧ dResid < 8) := by omega
      have h6 : ¬((-8 : ℤ) < dResid ∧ dResid < 0) := by omega
      simp [h1, h3, h5, h6]

/-! ## Claim theorems: reconstructed delta_t bound (C2) -/

/-- C2: whenever the reconstruction step update_values_from_prediction
completes (its assert does not fire), the reconstructed delta_t — the
new reconstructed time minus the previous one — is at most dtm; and the
decoder's inverse step, fed the same memory, reconstructed time, d
residual and quantized residual, reconstructs exactly the same delta_t
and time, so decoded events satisfy the same bound. -/
theorem update_values_from_prediction_bound (em : EC) (tRecon : ℕ) (dR r16 : ℤ)
    (sp dtm : ℕ) (em2 : EC) (t2 : ℕ)
    (h : updateValuesFromPrediction em tRecon (predictDeltaT em dR dtm) (r16 * 2 ^ sp) dtm =
      some (em2, t2)) :
    em2.delta_t ≤ dtm ∧ em2.delta_t = u32sub t2 tRecon ∧
      (inverseInterStep sp dtm em tRecon dR r16).1.delta_t = em2.delta_t ∧
      (inverseInterStep sp dtm em tRecon dR r16).2.1 = t2 := by
  unfold updateValuesFromPrediction at h
  split at h
  · rename_i hle
    simp only [Option.some.injEq, Prod.mk.injEq] at h
    obtain ⟨hem, ht⟩ := h
    subst hem
    subst ht
    exact ⟨hle, rfl, rfl, rfl⟩
  · exact absurd h (by simp)

/-- Witness for C2: the theorem applied at a concrete memory,
reconstructed time, residual and dtm, with the hypothesis discharged by
computation. -/
theorem update_values_from_prediction_bound_witness :
    (⟨3, 25⟩ : EC).delta_t ≤ 1000 ∧ (⟨3, 25⟩ : EC).delta_t = u32sub 125 100 ∧
      (inverseInterStep 0 1000 ⟨3, 5⟩ 100 0 20).1.delta_t = (⟨3, 25⟩ : EC).delta_t ∧
      (inverseInterStep 0 1000 ⟨3, 5⟩ 100 0 20).2.1 = 125 :=
  update_values_from_prediction_bound ⟨3, 5⟩ 100 0 20 0 1000 ⟨3, 25⟩ 125 (by decide)

/-! ## Claim theorems: seek position validation (C9) -/

/-- C9 counterexample: at header size 24, event size 9 and position 10,
the position is not at a valid event boundary in the claim's sense (the
integer difference position minus header size is not a multiple of the
event size), yet the function returns Ok rather than the Seek error:
the source uses a saturating subtraction, so every position below the
header size passes the boundary check. -/
theorem set_input_stream_position_claim_false :
    setInputStreamPosition 24 9 10 true = some (SeekResult.ok 80) ∧
      ¬ ((9 : ℤ) ∣ ((10 : ℤ) - 24)) := by decide

/-- C9 amended: with a nonzero event size, the function returns the
Seek error exactly when the saturating difference of the position and
the header size is not a multiple of the event size or the underlying
seek fails; otherwise it returns Ok with the reader positioned at bit
offset pos * 8. -/
theorem set_input_stream_position_spec (h e p : ℕ) (sOk : Bool) (he : e ≠ 0) :
    (setInputStreamPosition h e p sOk = some (SeekResult.err CodecErrorM.seek) ↔
      ((p - h) % e ≠ 0 ∨ sOk = false)) ∧
    ∀ q, setInputStreamPosition h e p sOk = some (SeekResult.ok q) →
      q = p * 8 ∧ (p - h) % e = 0 ∧ sOk = true := by
  unfold setInputStreamPosition
  rw [if_neg he]
  by_cases hm : (p - h) % e ≠ 0
  · rw [if_pos hm]
    constructor
    · simp [hm]
    · intro q hq
      exact absurd hq (by simp)
  · rw [if_neg hm]
    push_neg at hm
    cases sOk with
    | false =>
        constructor
        · simp
        · intro q hq
          exact absurd hq (by simp)
    | true =>
        constructor
        · simp [hm]
        · intro q hq
          simp only [not_true_eq_false, if_false, if_neg, Option.some.injEq,
            Bool.not_true] at hq
          refine ⟨?_, hm, rfl⟩
          cases hq with
          | _ => simp_all

/-- Witness for C9: the amended theorem applied at header size 24,
event size 9, position 42 and a succeeding seek. -/
theorem set_input_stream_position_spec_witness :
    setInputStreamPosition 24 9 42 true = some (SeekResult.ok 336) ∧
      (336 = 42 * 8 ∧ (42 - 24) % 9 = 0 ∧ true = true) :=
  ⟨by decide, (set_input_stream_position_spec 24 9 42 true (by decide)).2 336 (by decide)⟩

/-! ## Claim theorems: ADU window framing (C8) -/

/-- C8: ingest_event leaves the output byte sequence unchanged while
the event's t stays within the current ADU window, and exactly when t
exceeds the window it appends the compressed ADU payload preceded by
its length as a 32-bit big-endian integer. -/
theorem ingest_event_stream_effect (compressFn : EventAdu → List ℕ)
    (st : CompressedOutputM) (e : EventC) :
    (e.t ≤ st.adu.start_t + st.adu.dt_ref * st.adu.num_intervals →
      (ingestEvent compressFn st e).stream = st.stream) ∧
    (st.adu.start_t + st.adu.dt_ref * st.adu.num_intervals < e.t →
      (ingestEvent compressFn st e).stream =
        st.stream ++ u32beBytes (compressFn st.adu).length ++ compressFn st.adu) := by
  constructor
  · intro hle
    unfold ingestEvent
    rw [if_neg (by omega)]
  · intro hlt
    unfold ingestEvent
    rw [if_pos hlt]

/-- Witness for C8: a one-event ingest that crosses the ADU boundary
(window 6, event at t 7) appends the length-prefixed payload. -/
theorem ingest_event_stream_effect_witness :
    (0 + 2 * 3 < 7) ∧
      (ingestEvent (fun _ => [1, 2]) ⟨⟨0, 2, 3, []⟩, []⟩ ⟨0, 0, 7, 1⟩).stream =
        [] ++ u32beBytes ([1, 2] : List ℕ).length ++ [1, 2] :=
  ⟨by decide,
    (ingest_event_stream_effect (fun _ => [1, 2]) ⟨⟨0, 2, 3, []⟩, []⟩ ⟨0, 0, 7, 1⟩).2
      (by decide)⟩

/-! ## Serialization round-trip lemmas for the ADU layout (C3) -/

theorem parseBe16_be16T {n : ℕ} (h : n < 2 ^ 16) (r : List ℤ) :
    parseBe16 (be16T n ++ r) = some (n, r) := by
  unfold be16T parseBe16
  simp only [List.cons_append, List.nil_append, Int.toNat_natCast, Option.some.injEq,
    Prod.mk.injEq]
  exact ⟨by omega, by trivial⟩

theorem parseBe32_be32T {n : ℕ} (h : n < 2 ^ 32) (r : List ℤ) :
    parseBe32 (be32T n ++ r) = some (n, r) := by
  unfold be32T parseBe32
  simp only [List.cons_append, List.nil_append, Int.toNat_natCast, Option.some.injEq,
    Prod.mk.injEq]
  exact ⟨by omega, by trivial⟩

theorem readN_of_length {n : ℕ} {l : List ℤ} (r : List ℤ) (h : l.length = n) :
    readN n (l ++ r) = some (l, r) := by
  subst h
  unfold readN
  rw [if_pos (by simp)]
  rw [List.take_left, List.drop_left]

theorem parseIntra_serialize {b : AduIntraBlock} (h : intraWf b) (r : List ℤ) :
    parseIntra (serializeIntra b ++ r) = some (b, r) := by
  obtain ⟨t, d, slp, dres, tres⟩ := b
  obtain ⟨ht, hd, hslp, hdres, htres⟩ := h
  simp only at ht hd hslp hdres htres
  have h1 := parseBe32_be32T ht (((slp : ℕ) : ℤ) :: (dres ++ (tres ++ r)))
  have h2 := readN_of_length (tres ++ r) hdres
  have h3 := readN_of_length r htres
  simp only [serializeIntra, parseIntra, List.cons_append, List.append_assoc, h1, h2, h3,
    Int.toNat_natCast]

theorem parseInter_serialize {b : AduInterBlock} (h : interWf b) (r : List ℤ) :
    parseInter (serializeInter b ++ r) = some (b, r) := by
  obtain ⟨slp, dres, tres⟩ := b
  obtain ⟨hslp, hdres, htres⟩ := h
  simp only at hslp hdres htres
  have h2 := readN_of_length (tres ++ r) hdres
  have h3 := readN_of_length r htres
  simp only [serializeInter, parseInter, List.cons_append, List.append_assoc, h2, h3,
    Int.toNat_natCast]

theorem parseInters_serialize {bs : List AduInterBlock} (h : ∀ b ∈ bs, interWf b)
    (r : List ℤ) :
    parseInters bs.length ((bs.map serializeInter).flatten ++ r) = some (bs, r) := by
  induction bs with
  | nil => simp [parseInters]
  | cons b bs ih =>
      have hb := parseInter_serialize (h b (by simp)) ((bs.map serializeInter).flatten ++ r)
      have hrest := ih fun x hx => h x (by simp [hx])
      simp only [List.map_cons, List.flatten_cons, List.length_cons, List.append_assoc,
        parseInters, hb, hrest]

theorem parseCube_serialize {c : AduCube} (h : cubeWf c) (r : List ℤ) :
    parseCube (serializeCube c ++ r) = some (c, r) := by
  obtain ⟨y, x, nib, ib, ibs⟩ := c
  obtain ⟨hy, hx, hnib, hlen, hib, hibs⟩ := h
  simp only at hy hx hnib hlen hib hibs
  subst hlen
  have h1 := parseBe16_be16T hy
  have h2 := parseBe16_be16T hx
  have h3 := parseBe16_be16T hnib
  have h4 := parseIntra_serialize hib ((ibs.map serializeInter).flatten ++ r)
  have h5 := parseInters_serialize hibs r
  simp only [serializeCube, parseCube, List.append_assoc, h1, h2, h3, h4, h5]

theorem parseCubes_serialize {cs : List AduCube} (h : ∀ c ∈ cs, cubeWf c) (r : List ℤ) :
    parseCubes cs.length ((cs.map serializeCube).flatten ++ r) = some (cs, r) := by
  induction cs with
  | nil => simp [parseCubes]
  | cons c cs ih =>
      have hc := parseCube_serialize (h c (by simp)) ((cs.map serializeCube).flatten ++ r)
      have hrest := ih fun x hx => h x (by simp [hx])
      simp only [List.map_cons, List.flatten_cons, List.length_cons, List.append_assoc,
        parseCubes, hc, hrest]

theorem parseChannel_serialize {ch : AduChannel} (h : channelWf ch) (r : List ℤ) :
    parseChannel (serializeChannel ch ++ r) = some (ch, r) := by
  obtain ⟨nc, cs⟩ := ch
  obtain ⟨hnc, hlen, hcs⟩ := h
  simp only at hnc hlen hcs
  subst hlen
  have h1 := parseBe16_be16T hnc
  have h2 := parseCubes_serialize hcs r
  simp only [serializeChannel, parseChannel, List.append_assoc, h1, h2]

/-! ## Claim theorems: channels per ADU (C3) -/

/-- C3 counterexample: for a stream whose color plane has a single
channel, the claim prescribes a payload with exactly one serialized
(luminance) channel; Adu::compress nevertheless serializes all three
channel records, so already the empty ADU's payload differs from the
claim's payload. -/
theorem adu_single_channel_claim_false :
    serializeAdu ⟨0, ⟨0, []⟩, ⟨0, []⟩, ⟨0, []⟩⟩ ≠
      serializeAduClaim 1 ⟨0, ⟨0, []⟩, ⟨0, []⟩, ⟨0, []⟩⟩ := by
  decide

/-- C3 amended: an ADU's compressed payload always contains exactly
three serialized channels, in the fixed order R, G, B, regardless of
the color plane's channel count (for a 1-channel plane the G and B
channels are serialized as empty channel records); Adu::decompress
reads them back in the same order, recovering the ADU. -/
theorem adu_three_channels_roundtrip (a : Adu) (hwf : aduWf a) (r : List ℤ) :
    serializeAdu a =
      be32T a.head_event_t ++ serializeChannel a.cubes_r ++ serializeChannel a.cubes_g ++
        serializeChannel a.cubes_b ∧
    parseAdu (serializeAdu a ++ r) = some (a, r) := by
  obtain ⟨t, chr, chg, chb⟩ := a
  obtain ⟨ht, hr, hg, hb⟩ := hwf
  simp only at ht hr hg hb
  refine ⟨rfl, ?_⟩
  have h1 := parseBe32_be32T ht
    (serializeChannel chr ++ (serializeChannel chg ++ (serializeChannel chb ++ r)))
  have h2 := parseChannel_serialize hr (serializeChannel chg ++ (serializeChannel chb ++ r))
  have h3 := parseChannel_serialize hg (serializeChannel chb ++ r)
  have h4 := parseChannel_serialize hb r
  simp only [serializeAdu, parseAdu, List.append_assoc, h1, h2, h3, h4]

/-! ## Round-trip lemmas for the prediction pipeline (C1) -/

theorem u8wrap_eq_self {n : ℕ} (h : n < 256) : u8wrap (n : ℤ) = n := by
  unfold u8wrap
  omega

theorem updateValuesFromPrediction_d {em : EC} {t p : ℕ} {resid : ℤ} {dtm : ℕ}
    {em2 : EC} {t2 : ℕ}
    (h : updateValuesFromPrediction em t p resid dtm = some (em2, t2)) : em2.d = em.d := by
  unfold updateValuesFromPrediction at h
  split at h
  · simp only [Option.some.injEq, Prod.mk.injEq] at h
    rw [← h.1]
  · exact absurd h (by simp)

theorem finRange_all_true {f : Fin 256 → Bool}
    (hall : (List.finRange 256).all f = true) (i : Fin 256) : f i = true := by
  rw [List.all_eq_true] at hall
  exact hall i (List.mem_finRange i)

/-- A populated pixel's inter d residual is never the sentinel: both d
values fit in a u8, so the residual stays within -255..=255. -/
theorem interDResArr_ne_sentinel {pm : PM} {b : Block} {i : Fin 256} {next : EC}
    (hb : b i = some next) (hd : next.d < 256) (hm : (pm.event_memory i).d < 256) :
    interDResArr pm b i ≠ D_ENCODE_NO_EVENT := by
  unfold interDResArr interDResid dResidual D_ENCODE_NO_EVENT
  simp only [hb]
  omega

/-- One inter block round-trips its populated positions and d values,
and keeps the encoder's and decoder's event-memory d values in sync. -/
theorem inter_roundtrip_d (sp0 dtm dtRef : ℕ) (pmE pmD : PM) (b : Block)
    (hwf : blockWf b)
    (hsync : ∀ j, (pmE.event_memory j).d = (pmD.event_memory j).d)
    (hbound : ∀ j, (pmE.event_memory j).d < 256)
    (pm2 : PM) (dR r16 : Fin 256 → ℤ) (sp : ℕ)
    (henc : forwardInter sp0 dtm dtRef pmE b = some (pm2, dR, r16, sp)) :
    (∀ i, ((inverseInter sp dtm dtRef pmD dR r16).2 i).map EC.d = (b i).map EC.d) ∧
    (∀ i, (pm2.event_memory i).d =
      ((inverseInter sp dtm dtRef pmD dR r16).1.event_memory i).d) ∧
    (∀ i, (pm2.event_memory i).d < 256) := by
  unfold forwardInter at henc
  split at henc
  case isFalse => exact absurd henc (by simp)
  case isTrue hall =>
  simp only [Option.some.injEq, Prod.mk.injEq] at henc
  obtain ⟨hpm2, hdR, hr16, hsp⟩ := henc
  subst hdR
  subst hr16
  subst hsp
  have key : ∀ i, ((inverseInter (interSp sp0 dtm pmE b) dtm dtRef pmD (interDResArr pmE b)
        (interR16 sp0 dtm pmE b)).2 i).map EC.d = (b i).map EC.d ∧
      (pm2.event_memory i).d =
        ((inverseInter (interSp sp0 dtm pmE b) dtm dtRef pmD (interDResArr pmE b)
          (interR16 sp0 dtm pmE b)).1.event_memory i).d ∧
      (pm2.event_memory i).d < 256 := by
    intro i
    have hok := finRange_all_true hall i
    cases hb : b i with
    | some next =>
        have hd : next.d < 256 := hwf i next hb
        have hne : interDResArr pmE b i ≠ D_ENCODE_NO_EVENT :=
          interDResArr_ne_sentinel hb hd (hbound i)
        have hupdSome : (interUpd sp0 dtm pmE b i).isSome := by
          unfold interOkAt at hok
          rw [hb] at hok
          simp only [Bool.and_eq_true] at hok
          exact hok.2
        obtain ⟨⟨em2, t2⟩, hupd⟩ := Option.isSome_iff_exists.mp hupdSome
        have hem2d : em2.d = next.d := by
          unfold interUpd at hupd
          rw [hb] at hupd
          exact updateValuesFromPrediction_d hupd
        have hstep : inverseStepAt (interSp sp0 dtm pmE b) dtm pmD (interDResArr pmE b)
            (interR16 sp0 dtm pmE b) i =
            some (inverseInterStep (interSp sp0 dtm pmE b) dtm (pmD.event_memory i)
              (pmD.t_recon i) (interDResArr pmE b i) (interR16 sp0 dtm pmE b i)) := by
          unfold inverseStepAt
          rw [if_pos hne]
        have hdval : u8wrap (((pmD.event_memory i).d : ℤ) + interDResArr pmE b i) = next.d := by
          have harr : interDResArr pmE b i =
              (next.d : ℤ) - ((pmE.event_memory i).d : ℤ) := by
            unfold interDResArr interDResid dResidual
            rw [hb]
          rw [harr, ← hsync i]
          have : ((pmE.event_memory i).d : ℤ) + ((next.d : ℤ) - ((pmE.event_memory i).d : ℤ)) =
              (next.d : ℤ) := by ring
          rw [this]
          exact u8wrap_eq_self hd
        have hpm2i : pm2.event_memory i = em2 := by
          rw [← hpm2]
          simp only [hupd]
        refine ⟨?_, ?_, ?_⟩
        · unfold inverseInter
          simp only [hstep]
          simp [inverseInterStep, hb, hdval]
        · unfold inverseInter
          simp only [hstep]
          rw [hpm2i, hem2d]
          simp [inverseInterStep, hdval]
        · rw [hpm2i, hem2d]
          exact hd
    | none =>
        have hsent : interDResArr pmE b i = D_ENCODE_NO_EVENT := by
          unfold interDResArr
          rw [hb]
        have hstep : inverseStepAt (interSp sp0 dtm pmE b) dtm pmD (interDResArr pmE b)
            (interR16 sp0 dtm pmE b) i = none := by
          unfold inverseStepAt
          rw [if_neg (by simp [hsent])]
        have hupdNone : interUpd sp0 dtm pmE b i = none := by
          unfold interUpd
          rw [hb]
        have hpm2i : pm2.event_memory i = pmE.event_memory i := by
          rw [← hpm2]
          simp only [hupdNone]
        refine ⟨?_, ?_, ?_⟩
        · unfold inverseInter
          simp [hstep, hb]
        · unfold inverseInter
          simp only [hstep]
          rw [hpm2i]
          exact hsync i
        · rw [hpm2i]
          exact hbound i
  exact ⟨fun i => (key i).1, fun i => (key i).2.1, fun i => (key i).2.2⟩

/-- A chain of inter blocks round-trips the per-pixel d sequences. -/
theorem inters_roundtrip_d (sp0 dtm dtRef : ℕ) :
    ∀ (bs : List Block) (pmE pmD : PM)
      (hwf : ∀ b ∈ bs, blockWf b)
      (hsync : ∀ j, (pmE.event_memory j).d = (pmD.event_memory j).d)
      (hbound : ∀ j, (pmE.event_memory j).d < 256)
      (outs : List ((Fin 256 → ℤ) × (Fin 256 → ℤ) × ℕ))
      (henc : encodeInters sp0 dtm dtRef pmE bs = some outs)
      (i : Fin 256),
      pixelDs (decodeInters dtm dtRef pmD outs) i = pixelDs bs i := by
  intro bs
  induction bs with
  | nil =>
      intro pmE pmD hwf hsync hbound outs henc i
      unfold encodeInters at henc
      simp only [Option.some.injEq] at henc
      subst henc
      rfl
  | cons b bs ih =>
      intro pmE pmD hwf hsync hbound outs henc i
      unfold encodeInters at henc
      cases hfwd : forwardInter sp0 dtm dtRef pmE b with
      | none => rw [hfwd] at henc; exact absurd henc (by simp)
      | some out =>
          obtain ⟨pm2, dR, r16, sp⟩ := out
          rw [hfwd] at henc
          simp only [Option.map_eq_some'] at henc
          obtain ⟨rest, hrest, houts⟩ := henc
          subst houts
          have hhead := inter_roundtrip_d sp0 dtm dtRef pmE pmD b (hwf b (by simp))
            hsync hbound pm2 dR r16 sp hfwd
          unfold decodeInters
          unfold pixelDs
          simp only [List.filterMap_cons]
          have htail := ih pm2 (inverseInter sp dtm dtRef pmD dR r16).1
            (fun x hx => hwf x (by simp [hx])) hhead.2.1 hhead.2.2 rest hrest i
          unfold pixelDs at htail
          rw [hhead.1 i, htail]

/-- The head position of a populated block is populated, and it holds
the start event. -/
theorem firstPopulated_spec {b : Block} {i : Fin 256}
    (h : firstPopulated b = some i) : b i = some (intraStart b) := by
  have hp := List.find?_some h
  simp only [Option.isSome_iff_exists] at hp
  obtain ⟨e, he⟩ := hp
  have hs : intraStart b = e := by
    unfold intraStart
    rw [h]
    simp [he]
  rw [hs]
  exact he

/-- An intra block round-trips its populated positions and d values. -/
theorem intra_roundtrip_d (sp0 dtRef dtm : ℕ) (mode : Mode) (b : Block)
    (hwf : blockWf b) (o : IntraOut) (pm1 : PM)
    (henc : forwardIntra sp0 dtRef dtm mode b = some (o, pm1)) :
    ∀ i, (intraDecodedBlock o i).map EC.d = (b i).map EC.d := by
  unfold forwardIntra at henc
  split at henc
  case isFalse => exact absurd henc (by simp)
  case isTrue hall =>
  simp only [Option.some.injEq, Prod.mk.injEq] at henc
  obtain ⟨ho, hpm1⟩ := henc
  subst ho
  intro i
  by_cases hstart : firstPopulated b = some i
  · have hbi := firstPopulated_spec hstart
    unfold intraDecodedBlock
    simp [hstart, hbi]
  · cases hb : b i with
    | some next =>
        have hd : next.d < 256 := hwf i next hb
        obtain ⟨j, hj⟩ : ∃ j, firstPopulated b = some j := by
          cases hfp : firstPopulated b with
          | some j => exact ⟨j, rfl⟩
          | none =>
              unfold firstPopulated at hfp
              rw [List.find?_eq_none] at hfp
              have := hfp i (List.mem_finRange i)
              rw [hb] at this
              simp at this
        have hstartd : (intraStart b).d < 256 := by
          have := firstPopulated_spec hj
          exact hwf j (intraStart b) this
        have hne : intraDResArr b i ≠ D_ENCODE_NO_EVENT := by
          unfold intraDResArr dResidual D_ENCODE_NO_EVENT
          rw [if_neg hstart]
          simp only [hb]
          omega
        have hres : intraDResArr b i = (next.d : ℤ) - ((intraStart b).d : ℤ) := by
          unfold intraDResArr dResidual
          rw [if_neg hstart]
          simp only [hb]
        unfold intraDecodedBlock
        dsimp only
        rw [if_neg hstart, if_pos hne, hres]
        have heq : ((intraStart b).d : ℤ) + ((next.d : ℤ) - ((intraStart b).d : ℤ)) =
            (next.d : ℤ) := by ring
        simp [heq, hb, u8wrap_eq_self hd]
    | none =>
        have hsent : intraDResArr b i = D_ENCODE_NO_EVENT := by
          unfold intraDResArr
          rw [if_neg hstart]
          simp only [hb]
        unfold intraDecodedBlock
        simp [hstart, hsent, hb]

/-! ## Claim theorems: round-trip count and d fidelity (C1) -/

/-- C1: for a cube of event blocks (one intra block followed by inter
blocks), whenever the encoder succeeds, decoding its output reproduces,
for every pixel, exactly the input event sequence's length and d
values: pixelDs collects one d per event of that pixel in block order,
so equal pixelDs means equal per-pixel event counts and equal d values
event by event. -/
theorem cube_roundtrip_count_and_d (sp0 dtm dtRef : ℕ) (mode : Mode)
    (intraB : Block) (inters : List Block)
    (hwf : ∀ b ∈ intraB :: inters, blockWf b) (enc : EncodedCube)
    (henc : encodeCube sp0 dtm dtRef mode intraB inters = some enc) :
    ∀ i, pixelDs (decodeCube dtm dtRef mode enc) i = pixelDs (intraB :: inters) i := by
  intro i
  unfold encodeCube at henc
  cases hintra : forwardIntra sp0 dtRef dtm mode intraB with
  | none => rw [hintra] at henc; exact absurd henc (by simp)
  | some out =>
      obtain ⟨o, pm1⟩ := out
      rw [hintra] at henc
      simp only [Option.map_eq_some'] at henc
      obtain ⟨rest, hrest, hencC⟩ := henc
      subst hencC
      have hhead := intra_roundtrip_d sp0 dtRef dtm mode intraB (hwf intraB (by simp))
        o pm1 hintra
      have hpm1mem : ∀ j, (pm1.event_memory j).d = 0 := by
        unfold forwardIntra at hintra
        split at hintra
        case isFalse => exact absurd hintra (by simp)
        case isTrue =>
          simp only [Option.some.injEq, Prod.mk.injEq] at hintra
          intro j
          rw [← hintra.2]
          rfl
      have htail := inters_roundtrip_d sp0 dtm dtRef inters pm1
        (inverseIntra mode dtRef o).1 (fun x hx => hwf x (by simp [hx]))
        (fun j => by rw [hpm1mem j]; rfl)
        (fun j => by rw [hpm1mem j]; omega)
        rest hrest i
      unfold decodeCube
      unfold pixelDs
      simp only [List.filterMap_cons]
      unfold pixelDs at htail
      have hdec : (inverseIntra mode dtRef o).2 = intraDecodedBlock o := rfl
      rw [hdec, hhead i, htail]

/-- Witness for C1: a cube whose intra block and single inter block
each hold one event at pixel 0 (d 7, times 100 and 300, dtm 2550,
dt_ref 255) encodes successfully, and the decoded d sequence at pixel 0
matches the input. -/
theorem cube_roundtrip_count_and_d_witness :
    pixelDs
        (decodeCube 2550 255 Mode.Continuous
          ((encodeCube 0 2550 255 Mode.Continuous
              (fun i => if i = (0 : Fin 256) then some (⟨7, 100⟩ : EC) else none)
              [fun i => if i = (0 : Fin 256) then some (⟨7, 300⟩ : EC) else none]).get
            (by decide)))
        0 =
      pixelDs
        ((fun i => if i = (0 : Fin 256) then some (⟨7, 100⟩ : EC) else none) ::
          [fun i => if i = (0 : Fin 256) then some (⟨7, 300⟩ : EC) else none])
        0 :=
  cube_roundtrip_count_and_d 0 2550 255 Mode.Continuous _ _
    (by
      intro b hb i e he
      have hd : e.d = 7 := by
        simp only [List.mem_cons, List.not_mem_nil, or_false] at hb
        rcases hb with rfl | rfl <;>
          · simp only [] at he
            split at he
            · cases he
              rfl
            · cases he
      rw [hd]
      norm_num)
    _ (Option.some_get _).symm 0

/-! ## Pixel-model lemmas (C6, C7, C10) -/

theorem getD_eq_min_log {I : ℚ} (h : 0 < I) :
    getDFromIntensity I = min (Nat.log 2 ⌊I⌋₊) D_MAX := by
  unfold getDFromIntensity D_MAX
  rw [if_pos h, log2fuel_eq_min]
  omega

/-- The threshold of the recomputed d never exceeds the integration it
was computed from. -/
theorem pow_getD_le {x : ℚ} (hx : 1 ≤ x) : (2 : ℚ) ^ getDFromIntensity x ≤ x := by
  have h0 : (0 : ℚ) < x := by linarith
  have hfl : ⌊x⌋₊ ≠ 0 := by
    have h1 : 1 ≤ ⌊x⌋₊ := Nat.le_floor (by exact_mod_cast hx)
    omega
  rw [getD_eq_min_log h0]
  have h1 : (2 : ℕ) ^ min (Nat.log 2 ⌊x⌋₊) D_MAX ≤ 2 ^ Nat.log 2 ⌊x⌋₊ :=
    Nat.pow_le_pow_right (by norm_num) (min_le_left _ _)
  have h2 : (2 : ℕ) ^ Nat.log 2 ⌊x⌋₊ ≤ ⌊x⌋₊ := Nat.pow_log_le_self 2 hfl
  have h3 : ((⌊x⌋₊ : ℚ)) ≤ x := Nat.floor_le (le_of_lt h0)
  calc (2 : ℚ) ^ min (Nat.log 2 ⌊x⌋₊) D_MAX
      = (((2 : ℕ) ^ min (Nat.log 2 ⌊x⌋₊) D_MAX : ℕ) : ℚ) := by push_cast; ring
    _ ≤ ((⌊x⌋₊ : ℚ)) := by exact_mod_cast le_trans h1 h2
    _ ≤ x := h3

/-- A node whose threshold is reached never sees its d decrease when d
is recomputed from the total integration. -/
theorem getD_ge {x : ℚ} {d : ℕ} (hd : d ≤ D_MAX) (hx : (dShift d : ℚ) ≤ x) :
    d ≤ getDFromIntensity x := by
  have hone : (1 : ℚ) ≤ (dShift d : ℚ) := by
    unfold dShift
    exact_mod_cast Nat.one_le_two_pow
  have h0 : (0 : ℚ) < x := by linarith
  have hfloor : dShift d ≤ ⌊x⌋₊ := Nat.le_floor (by exact_mod_cast le_trans hx (le_refl x))
  have hfl0 : ⌊x⌋₊ ≠ 0 := by
    have : 0 < dShift d := by unfold dShift; positivity
    omega
  have hlog : d ≤ Nat.log 2 ⌊x⌋₊ := (Nat.pow_le_iff_le_log one_lt_two hfl0).mp hfloor
  rw [getD_eq_min_log h0]
  unfold D_MAX at hd ⊢
  omega

/-- Below the cap, the recomputed d is the exact floor logarithm, so
one single increment of the raising loop already exceeds the truncated
integration. -/
theorem getD_floor_bound {x : ℚ} (h0 : 0 < x) (hcap : getDFromIntensity x < D_MAX) :
    ⌊x⌋₊ < 2 ^ (getDFromIntensity x + 1) := by
  rw [getD_eq_min_log h0] at hcap ⊢
  have hmin : min (Nat.log 2 ⌊x⌋₊) D_MAX = Nat.log 2 ⌊x⌋₊ := by omega
  rw [hmin]
  exact Nat.lt_pow_succ_log_self one_lt_two _

/-- The crossing fraction of a firing node is strictly positive: the
recomputed threshold stays above the accumulated integration. -/
theorem fireProp_pos {s : PixelState} {I : ℚ} (hI : 0 < I)
    (hinv : s.integration < (dShift s.d : ℚ)) (hd : s.d ≤ D_MAX)
    (hfire : (dShift s.d : ℚ) ≤ s.integration + I) : 0 < fireProp s I := by
  unfold fireProp
  apply div_pos _ hI
  have hge : s.d ≤ fireNewD s I := getD_ge hd hfire
  have hmono : (dShift s.d : ℚ) ≤ (dShift (fireNewD s I) : ℚ) := by
    unfold dShift
    exact_mod_cast Nat.pow_le_pow_right (by norm_num) hge
  linarith

/-- The d-raising loop stops after its first increment whenever the
truncated integration is already below the next threshold. -/
theorem raiseD_128_eq_succ {d m : ℕ} (h : m < dShift (d + 1)) : raiseD 128 d m = d + 1 := by
  have h128 : (128 : ℕ) = 127 + 1 := rfl
  rw [h128]
  unfold raiseD
  rw [if_pos h]

/-! ## Claim theorems: integrate_main firing behaviour (C6) -/

/-- C6 counterexample: a node with d 6 and zero integration receiving
intensity 200 fires with best_event d 7 — the d recomputed from the
total integration by get_d_from_intensity — not the node's entry d 6 as
the claim prescribes. -/
theorem integrate_main_claim_false :
    (integrateMain ⟨⟨6, 0, 0⟩, none⟩ 200 10 Mode.Continuous).map
        (fun r => r.1.best_event.map Prod.fst) = some (some 7) ∧ (7 : ℕ) ≠ 6 := by
  refine ⟨?_, by decide⟩
  have hlog : Nat.log 2 200 = 7 := Nat.log_eq_of_pow_le_of_lt_pow (by norm_num) (by norm_num)
  have hget : getDFromIntensity (200 : ℚ) = 7 := by
    rw [getD_eq_min_log (by norm_num)]
    rw [show ⌊(200 : ℚ)⌋₊ = 200 from Nat.floor_eq_iff (by norm_num) |>.mpr (by norm_num)]
    rw [hlog]
    decide
  have hfire : ((dShift 6 : ℕ) : ℚ) ≤ (0 : ℚ) + 200 := by
    norm_num [dShift]
  have hprop : 0 < fireProp ⟨6, 0, 0⟩ 200 := by
    unfold fireProp fireNewD
    simp only [zero_add, hget]
    norm_num [dShift]
  unfold integrateMain
  rw [if_pos hfire, if_pos hprop]
  simp [fireNewD, hget]

/-- C6 amended: a node that does not reach its threshold only
accumulates; a node that does fires with best_event built from the d
freshly recomputed by get_d_from_intensity over the total integration
(fireNewD) and the crossing fraction taken against that new d
(fireProp); then, only below D_MAX, intensity and time are accumulated
and d is raised — by exactly one increment — past the truncated
integration; at D_MAX nothing is accumulated.  The returned remainder
is zero for FramePerfect and the (1 - prop) fractions for Continuous. -/
theorem integrate_main_spec (n : PixelNodeM) (I t : ℚ) (mode : Mode)
    (hI : 0 < I) (hinv : n.state.integration < (dShift n.state.d : ℚ))
    (hd : n.state.d ≤ D_MAX) :
    (n.state.integration + I < (dShift n.state.d : ℚ) →
      integrateMain n I t mode =
        some (⟨⟨n.state.d, n.state.integration + I, n.state.delta_t + t⟩,
          n.best_event⟩, none)) ∧
    ((dShift n.state.d : ℚ) ≤ n.state.integration + I →
      integrateMain n I t mode =
        some
          (⟨if fireNewD n.state I < D_MAX then
              ⟨fireNewD n.state I + 1, n.state.integration + I, n.state.delta_t + t⟩
            else ⟨D_MAX, n.state.integration, n.state.delta_t⟩,
            some (fireNewD n.state I, n.state.delta_t + t * fireProp n.state I)⟩,
           some
             (match mode with
              | Mode.FramePerfect => ((0 : ℚ), (0 : ℚ))
              | Mode.Continuous =>
                  (I - I * fireProp n.state I, t - t * fireProp n.state I))) ∧
        (fireNewD n.state I < D_MAX →
          ⌊n.state.integration + I⌋₊ < dShift (fireNewD n.state I + 1))) := by
  obtain ⟨⟨d0, ig, dt⟩, be⟩ := n
  have hthr : (0 : ℚ) < (dShift d0 : ℚ) := by
    unfold dShift
    positivity
  constructor
  · intro hlt
    unfold integrateMain
    rw [if_neg (by simp only [not_le]; exact hlt)]
  · intro hfire
    have hx1 : (1 : ℚ) ≤ ig + I := by
      have : (1 : ℚ) ≤ (dShift d0 : ℚ) := by
        unfold dShift
        exact_mod_cast Nat.one_le_two_pow
      linarith
    have hx0 : (0 : ℚ) < ig + I := by linarith
    have hprop : 0 < fireProp ⟨d0, ig, dt⟩ I := fireProp_pos hI hinv hd hfire
    have hbound : fireNewD ⟨d0, ig, dt⟩ I < D_MAX →
        ⌊ig + I⌋₊ < dShift (fireNewD ⟨d0, ig, dt⟩ I + 1) := by
      intro hcap
      unfold dShift
      exact getD_floor_bound hx0 hcap
    refine ⟨?_, hbound⟩
    unfold integrateMain
    rw [if_pos hfire, if_pos hprop]
    have hstate : fireState ⟨d0, ig, dt⟩ I t =
        if fireNewD ⟨d0, ig, dt⟩ I < D_MAX then
          ⟨fireNewD ⟨d0, ig, dt⟩ I + 1, ig + I, dt + t⟩
        else ⟨D_MAX, ig, dt⟩ := by
      unfold fireState
      by_cases hcap : fireNewD ⟨d0, ig, dt⟩ I < D_MAX
      · rw [if_pos hcap, if_pos hcap]
        simp only
        rw [raiseD_128_eq_succ (hbound hcap)]
      · rw [if_neg hcap, if_neg hcap]
        have hmax : fireNewD ⟨d0, ig, dt⟩ I = D_MAX := by
          unfold fireNewD at hcap ⊢
          rw [getD_eq_min_log hx0] at hcap ⊢
          unfold D_MAX at hcap ⊢
          omega
        rw [hmax]
    have hret : fireRet ⟨d0, ig, dt⟩ I t mode =
        match mode with
        | Mode.FramePerfect => ((0 : ℚ), (0 : ℚ))
        | Mode.Continuous =>
            (I - I * fireProp ⟨d0, ig, dt⟩ I, t - t * fireProp ⟨d0, ig, dt⟩ I) := by
      unfold fireRet
      rw [if_pos]
      have hle1 : fireProp ⟨d0, ig, dt⟩ I ≤ 1 := by
        unfold fireProp
        rw [div_le_one hI]
        have := pow_getD_le hx1
        unfold fireNewD dShift
        unfold getDFromIntensity at this ⊢
        simp only at this ⊢
        push_cast
        linarith [this]
      have : 0 ≤ I * (1 - fireProp ⟨d0, ig, dt⟩ I) :=
        mul_nonneg (le_of_lt hI) (by linarith)
      linarith [this]
    rw [hstate, hret]

/-- Witness for C6's amended theorem: the fire branch applied at the
counterexample's node (d 6, intensity 200) returns an event. -/
theorem integrate_main_spec_witness :
    (integrateMain ⟨⟨6, 0, 0⟩, none⟩ 200 10 Mode.Continuous).isSome = true := by
  have h := (integrate_main_spec ⟨⟨6, 0, 0⟩, none⟩ 200 10 Mode.Continuous
    (by norm_num) (by norm_num [dShift]) (by norm_num [D_MAX])).2
    (by norm_num [dShift])
  rw [h.1]
  rfl

/-! ## Claim theorems: the prop positivity assert (C10) -/

/-- C10: on a node satisfying the invariant (integration below the
threshold, d within D_MAX) and a positive intensity, the crossing
fraction is strictly positive whenever the node fires, so the
positivity assert inside integrate_main never fails and the call always
returns. -/
theorem integrate_main_prop_assert_holds (n : PixelNodeM) (I t : ℚ) (mode : Mode)
    (hI : 0 < I) (hinv : n.state.integration < (dShift n.state.d : ℚ))
    (hd : n.state.d ≤ D_MAX) :
    ((dShift n.state.d : ℚ) ≤ n.state.integration + I → 0 < fireProp n.state I) ∧
    (integrateMain n I t mode).isSome := by
  constructor
  · intro hfire
    exact fireProp_pos hI hinv hd hfire
  · unfold integrateMain
    by_cases hfire : (dShift n.state.d : ℚ) ≤ n.state.integration + I
    · rw [if_pos hfire, if_pos (fireProp_pos hI hinv hd hfire)]
      rfl
    · rw [if_neg hfire]
      rfl

/-- Witness for C10: a node with d 3, integration 1, receiving
intensity 10 (which fires), has a positive crossing fraction and the
call returns. -/
theorem integrate_main_prop_assert_holds_witness :
    (0 < fireProp ⟨3, 1, 0⟩ 10) ∧
      (integrateMain ⟨⟨3, 1, 0⟩, none⟩ 10 5 Mode.FramePerfect).isSome := by
  have h := integrate_main_prop_assert_holds ⟨⟨3, 1, 0⟩, none⟩ 10 5 Mode.FramePerfect
    (by norm_num) (by norm_num [dShift]) (by norm_num [D_MAX])
  exact ⟨h.1 (by norm_num [dShift]), h.2⟩

/-! ## Claim theorems: get_d_from_intensity (C7) -/

/-- C7 counterexample: at intensity 3/4 (a defined input for the Rust
code: the truncated approximate logarithm is 0 there), the function
returns 0, but the claim's value min(floor(log2 (3/4)), D_MAX) is -1 —
unrepresentable in the u8 return type. -/
theorem get_d_from_intensity_claim_false :
    ¬ ((getDFromIntensity (3 / 4 : ℚ) : ℤ) = min (Int.log 2 (3 / 4 : ℚ)) (D_MAX : ℤ)) := by
  have h1 : getDFromIntensity (3 / 4 : ℚ) = 0 := by
    unfold getDFromIntensity
    rw [if_pos (by norm_num)]
    rw [show ⌊(3 / 4 : ℚ)⌋₊ = 0 from Nat.floor_eq_zero.mpr (by norm_num)]
    rfl
  have h2 : Int.log 2 (3 / 4 : ℚ) = -1 := by
    rw [Int.log_of_right_le_one 2 (by norm_num)]
    rw [show ((3 / 4 : ℚ))⁻¹ = 4 / 3 by norm_num]
    rw [show ⌈(4 / 3 : ℚ)⌉₊ = 2 from (Nat.ceil_eq_iff (by norm_num)).mpr
      (by constructor <;> norm_num)]
    rw [Nat.clog_eq_one (by norm_num) (by norm_num)]
    norm_num
  rw [h1, h2]
  decide

/-- C7 amended: for intensities at least 1, get_d_from_intensity
returns min(floor(log2 I), D_MAX); for nonpositive intensities it
returns 0.  (For intensities strictly between 0 and 1 the Rust cast of
the negative approximate logarithm either truncates to 0 or is
undefined behaviour, so the claim's formula cannot hold there.) -/
theorem get_d_from_intensity_spec (I : ℚ) :
    (1 ≤ I → (getDFromIntensity I : ℤ) = min (Int.log 2 I) (D_MAX : ℤ)) ∧
    (I ≤ 0 → getDFromIntensity I = 0) := by
  constructor
  · intro h1
    have h0 : (0 : ℚ) < I := by linarith
    rw [Int.log_of_one_le_right 2 h1, getD_eq_min_log h0]
    push_cast
    rfl
  · intro h
    unfold getDFromIntensity
    rw [if_neg (by linarith)]

/-- Witness for C7's amended theorem at intensity 8. -/
theorem get_d_from_intensity_spec_witness :
    (getDFromIntensity (8 : ℚ) : ℤ) = min (Int.log 2 (8 : ℚ)) (D_MAX : ℤ) :=
  (get_d_from_intensity_spec 8).1 (by norm_num)

/-- Witness for C3's amended theorem: the empty ADU with head
timestamp 5 round-trips, leaving the tail symbols untouched. -/
theorem adu_three_channels_roundtrip_witness :
    serializeAdu ⟨5, ⟨0, []⟩, ⟨0, []⟩, ⟨0, []⟩⟩ =
      be32T 5 ++ serializeChannel ⟨0, []⟩ ++ serializeChannel ⟨0, []⟩ ++
        serializeChannel ⟨0, []⟩ ∧
    parseAdu (serializeAdu ⟨5, ⟨0, []⟩, ⟨0, []⟩, ⟨0, []⟩⟩ ++ [9]) =
      some (⟨5, ⟨0, []⟩, ⟨0, []⟩, ⟨0, []⟩⟩, [9]) :=
  adu_three_channels_roundtrip ⟨5, ⟨0, []⟩, ⟨0, []⟩, ⟨0, []⟩⟩
    (by refine ⟨by norm_num, ?_, ?_, ?_⟩ <;> exact ⟨by norm_num, rfl, by simp⟩) [9]

end AdderCodec
